import Mathlib

/-!
Verification development for the orderbook-reflex synthetic market engine.

The Python sources are shallowly embedded below.  Monetary values and
Dirichlet weights are modelled as exact rationals (`ℚ`), list/array state is
modelled by Lean lists, and every source of randomness (Dirichlet draws,
uniform venue indices, offset draws) is made an explicit argument, so that
each embedded operation is a pure, executable function of its inputs.

Embedded components:
* `pyRound` / `round2` — Python's banker's rounding (`round(x)` and
  `round(x, 2)`), used by `simulate_quotes.py` and `exchangebookgenerator.py`.
* `stepRun` — the tick-emission loop of `QuoteGenerator.step_second`.
* `transform` — `FeatureBuilder.transform`.
* `updateSecond` — `QuoteModel.update_second`.
* `convertModelToJson` / `importModel` — the model export of
  `convert_model.py` and the (spec-modelled) importer.
* `classifyPivot` — the pivot detection step of `PriceModel.update`.
* `initSharesP`, `pickExchangesCount`, `dirichletSizes` (with its two
  reconciliation loops), `drawOffsets`, `ensureNbboVolume`, `generate` —
  `ExchangeBookGenerator`.
-/

/-- Python's `round(q)` on an exact rational: round half to even
(banker's rounding), as used by `round(...)` in the sources. -/
def pyRound (q : ℚ) : ℤ :=
  if Int.fract q < 1/2 then ⌊q⌋
  else if 1/2 < Int.fract q then ⌊q⌋ + 1
  else if Even ⌊q⌋ then ⌊q⌋ else ⌊q⌋ + 1

/-- Python's `round(q, 2)`: round to two decimal places, half to even. -/
def round2 (q : ℚ) : ℚ := (pyRound (q * 100) : ℚ) / 100

theorem pyRound_cases (q : ℚ) : pyRound q = ⌊q⌋ ∨ pyRound q = ⌊q⌋ + 1 := by
  unfold pyRound
  split_ifs <;> simp

theorem pyRound_mono {a b : ℚ} (h : a ≤ b) : pyRound a ≤ pyRound b := by
  rcases lt_or_eq_of_le (Int.floor_le_floor h : ⌊a⌋ ≤ ⌊b⌋) with hf | hf
  · rcases pyRound_cases a with ha | ha <;> rcases pyRound_cases b with hb | hb <;>
      rw [ha, hb] <;> omega
  · have hfr : Int.fract a ≤ Int.fract b := by
      unfold Int.fract
      rw [hf]
      linarith
    unfold pyRound
    rw [hf]
    split_ifs <;> first | omega | linarith

theorem round2_mono {a b : ℚ} (h : a ≤ b) : round2 a ≤ round2 b := by
  unfold round2
  have := pyRound_mono (mul_le_mul_of_nonneg_right h (by norm_num : (0:ℚ) ≤ 100))
  have hc : (pyRound (a * 100) : ℚ) ≤ (pyRound (b * 100) : ℚ) := by exact_mod_cast this
  linarith

/-- One sampled tick shape, the result of `QuoteModel.sample_tick`:
`dict(dp=dp_bin*0.005, spread=sp_bin*0.01, size=sz_bin*100)`. -/
structure SampledTick where
  dp : ℚ
  spread : ℚ
  size : ℤ
deriving DecidableEq

/-- One emitted synthetic NBBO tick of `QuoteGenerator.step_second`. -/
structure OutTick where
  time : ℕ
  priceBid : ℚ
  priceAsk : ℚ
  sizeBid : ℤ
  sizeAsk : ℤ
deriving DecidableEq

/-- The body of the per-tick loop in `QuoteGenerator.step_second`
(simulate_quotes.py lines 257-284).  The loop count `n` (a Poisson draw) and
`sample_tick` draws are externalised: `samples` is the list of the `n` drawn
tick shapes.  The running best bid / ask are threaded exactly as the Python
attributes `self.bid` / `self.ask` are: `bid += dp`, then
`ask = max(bid + spread, bid + 0.01)`, then the tick is emitted with both
prices rounded to two decimals and the size floor-halved on each side. -/
def stepRun (ts : ℕ) (bid ask : ℚ) : List SampledTick → List OutTick
  | [] => []
  | t :: rest =>
    let bid2 := bid + t.dp
    let ask2 := max (bid2 + t.spread) (bid2 + 1/100)
    { time := ts, priceBid := round2 bid2, priceAsk := round2 ask2,
      sizeBid := t.size.fdiv 2, sizeAsk := t.size.fdiv 2 } :: stepRun ts bid2 ask2 rest

/-- `QuoteGenerator.step_second`: returns the emitted tick list together with
the final running bid (the carried `self.bid`). -/
def stepSecond (ts : ℕ) (bid0 ask0 : ℚ) (samples : List SampledTick) : List OutTick :=
  stepRun ts bid0 ask0 samples

/-- C2 counterexample.  With the running bid at 100.00 and a sampled tick
(dp = 0.015, spread = 0.01) — both reachable shapes, since `sample_tick`
emits dp as a multiple of 0.005 and spread as a multiple of 0.01 — the
pre-rounding prices are bid = 100.015 and ask = 100.025.  Rounding half to
even sends both to 100.02, so the emitted tick has priceBid = priceAsk and
the claimed strict inequality `priceBid < priceAsk` fails. -/
theorem step_second_strict_lt_fails :
    ¬ (∀ t ∈ stepSecond 0 100 (201/2) [⟨3/200, 1/100, 100⟩],
        t.priceBid < t.priceAsk) := by
  have hrun : stepSecond 0 100 (201/2) [⟨3/200, 1/100, 100⟩] =
      [⟨0, 5001/50, 5001/50, 50, 50⟩] := by
    norm_num [stepSecond, stepRun, round2, pyRound, Int.fract, max_def,
      Int.floor_eq_iff, Int.even_iff, Int.fdiv]
  intro h
  have := h ⟨0, 5001/50, 5001/50, 50, 50⟩ (by rw [hrun]; exact List.mem_singleton.mpr rfl)
  exact absurd this (by norm_num)

/-- C2 amended: every tick emitted by `QuoteGenerator.step_second` satisfies
`priceBid ≤ priceAsk`.  Before rounding the ask is set to
`max(bid + spread, bid + 0.01)`, so it exceeds the bid by at least one price
increment; rounding both prices half-to-even to two decimals preserves the
non-strict order (strictness can be lost exactly when both prices sit on
half-cent rounding ties, as in `step_second_strict_lt_fails`). -/
theorem step_second_bid_le_ask (ts : ℕ) (bid0 ask0 : ℚ) (samples : List SampledTick) :
    ∀ t ∈ stepSecond ts bid0 ask0 samples, t.priceBid ≤ t.priceAsk := by
  unfold stepSecond
  induction samples generalizing bid0 ask0 with
  | nil => intro t ht; simp [stepRun] at ht
  | cons s rest ih =>
    intro t ht
    rw [stepRun] at ht
    rcases List.mem_cons.mp ht with h | h
    · subst h
      dsimp only
      apply round2_mono
      exact le_max_right _ _ |>.trans' (by linarith)
    · exact ih _ _ t h

/-- C2 witness: the amended theorem applied at a concrete input.  A single
sampled tick (dp = 0.01, spread = 0.01) from bid 100.00 yields the emitted
tick (100.01, 100.02), which is in the output and satisfies bid ≤ ask. -/
theorem step_second_bid_le_ask_witness :
    (⟨0, 10001/100, 5001/50, 50, 50⟩ : OutTick) ∈
        stepSecond 0 100 (201/2) [⟨1/100, 1/100, 100⟩] ∧
    (⟨0, 10001/100, 5001/50, 50, 50⟩ : OutTick).priceBid ≤
      (⟨0, 10001/100, 5001/50, 50, 50⟩ : OutTick).priceAsk := by
  have hmem : (⟨0, 10001/100, 5001/50, 50, 50⟩ : OutTick) ∈
      stepSecond 0 100 (201/2) [⟨1/100, 1/100, 100⟩] := by
    have hrun : stepSecond 0 100 (201/2) [⟨1/100, 1/100, 100⟩] =
        [⟨0, 10001/100, 5001/50, 50, 50⟩] := by
      norm_num [stepSecond, stepRun, round2, pyRound, Int.fract, max_def,
        Int.floor_eq_iff, Int.even_iff, Int.fdiv]
    rw [hrun]
    exact List.mem_singleton.mpr rfl
  exact ⟨hmem, step_second_bid_le_ask 0 100 (201/2) [⟨1/100, 1/100, 100⟩] _ hmem⟩

/-- Pivot classification outcome of `PriceModel.update`: "PH", "PL" or None. -/
inductive PivotKind
  | PH
  | PL
  | NoPivot
deriving DecidableEq

/-- The pivot-detection step of `PriceModel.update` (price_model.py lines
85-97), applied to the buffer's mid prices once the deque is full:
`centre = buffer[window]` (index `window` from the oldest end), then High if
`centre == max(mids)`, else Low if `centre == min(mids)`, else None, with
exact equality of mids.  Python's `max`/`min` on a non-empty list are
modelled by a `foldl`; the empty case (unreachable, the code only runs on a
full buffer) reports None. -/
def classifyPivot (mids : List ℚ) (window : ℕ) : PivotKind :=
  match mids with
  | [] => PivotKind.NoPivot
  | x :: rest =>
    let centre := (x :: rest).getD window 0
    if centre = rest.foldl max x then PivotKind.PH
    else if centre = rest.foldl min x then PivotKind.PL
    else PivotKind.NoPivot

theorem foldl_max_init_le {α : Type} [LinearOrder α] (l : List α) (a : α) :
    a ≤ l.foldl max a := by
  induction l generalizing a with
  | nil => exact le_refl a
  | cons y t ih => exact le_trans (le_max_left a y) (ih (max a y))

theorem le_foldl_max_of_mem {α : Type} [LinearOrder α] {l : List α} {x : α} (a : α)
    (hx : x ∈ l) : x ≤ l.foldl max a := by
  induction l generalizing a with
  | nil => simp at hx
  | cons y t ih =>
    rcases List.mem_cons.mp hx with h | h
    · subst h
      exact le_trans (le_max_right a x) (foldl_max_init_le t (max a x))
    · exact ih (max a y) h

theorem foldl_max_choice {α : Type} [LinearOrder α] (l : List α) (a : α) :
    l.foldl max a = a ∨ l.foldl max a ∈ l := by
  induction l generalizing a with
  | nil => exact Or.inl rfl
  | cons y t ih =>
    rcases ih (max a y) with h | h
    · rcases max_choice a y with hm | hm
      · exact Or.inl (by rw [List.foldl_cons, h, hm])
      · exact Or.inr (by rw [List.foldl_cons, h, hm]; exact List.mem_cons_self y t)
    · exact Or.inr (List.mem_cons_of_mem y h)

theorem foldl_min_le_init {α : Type} [LinearOrder α] (l : List α) (a : α) :
    l.foldl min a ≤ a := by
  induction l generalizing a with
  | nil => exact le_refl a
  | cons y t ih => exact le_trans (ih (min a y)) (min_le_left a y)

theorem foldl_min_le_of_mem {α : Type} [LinearOrder α] {l : List α} {x : α} (a : α)
    (hx : x ∈ l) : l.foldl min a ≤ x := by
  induction l generalizing a with
  | nil => simp at hx
  | cons y t ih =>
    rcases List.mem_cons.mp hx with h | h
    · subst h
      exact le_trans (foldl_min_le_init t (min a x)) (min_le_right a x)
    · exact ih (min a y) h

theorem foldl_min_choice {α : Type} [LinearOrder α] (l : List α) (a : α) :
    l.foldl min a = a ∨ l.foldl min a ∈ l := by
  induction l generalizing a with
  | nil => exact Or.inl rfl
  | cons y t ih =>
    rcases ih (min a y) with h | h
    · rcases min_choice a y with hm | hm
      · exact Or.inl (by rw [List.foldl_cons, h, hm])
      · exact Or.inr (by rw [List.foldl_cons, h, hm]; exact List.mem_cons_self y t)
    · exact Or.inr (List.mem_cons_of_mem y h)

theorem getD_mem_of_lt {α : Type} (l : List α) (i : ℕ) (d : α) (h : i < l.length) :
    l.getD i d ∈ l := by
  induction l generalizing i with
  | nil => simp at h
  | cons a t ih =>
    cases i with
    | zero => simp
    | succ j =>
      simp only [List.getD_cons_succ]
      exact List.mem_cons_of_mem a (ih j (by simpa using h))

/-- C4: once the buffer holds exactly L = 2W+1 snapshots, the pivot step of
`PriceModel.update` classifies the element at index W from the oldest end as
High exactly when its mid equals the maximum mid of the whole window (the
High test comes first), as Low exactly when it equals the minimum and is not
also the maximum, and as None otherwise.  Equality of the centre with the
window maximum (resp. minimum) is stated as "every mid of the window is ≤
(resp. ≥) the centre mid", which by exact equality makes every element of a
flat plateau at the window extreme qualify. -/
theorem classify_pivot_spec (mids : List ℚ) (W : ℕ) (hlen : mids.length = 2*W + 1) :
    (classifyPivot mids W = PivotKind.PH ↔ ∀ y ∈ mids, y ≤ mids.getD W 0) ∧
    (classifyPivot mids W = PivotKind.PL ↔
      ((∀ y ∈ mids, mids.getD W 0 ≤ y) ∧ ¬ ∀ y ∈ mids, y ≤ mids.getD W 0)) ∧
    (classifyPivot mids W = PivotKind.NoPivot ↔
      (¬ (∀ y ∈ mids, y ≤ mids.getD W 0) ∧ ¬ ∀ y ∈ mids, mids.getD W 0 ≤ y)) := by
  cases mids with
  | nil => simp at hlen
  | cons x rest =>
    have hW : W < (x :: rest).length := by
      rw [hlen]
      omega
    have hcmem : (x :: rest).getD W 0 ∈ x :: rest := getD_mem_of_lt _ _ _ hW
    have key_max : ((x :: rest).getD W 0 = rest.foldl max x) ↔
        ∀ y ∈ x :: rest, y ≤ (x :: rest).getD W 0 := by
      constructor
      · intro h y hy
        rw [h]
        rcases List.mem_cons.mp hy with h1 | h1
        · rw [h1]
          exact foldl_max_init_le rest x
        · exact le_foldl_max_of_mem x h1
      · intro h
        apply le_antisymm
        · rcases List.mem_cons.mp hcmem with h1 | h1
          · rw [h1]
            exact foldl_max_init_le rest x
          · exact le_foldl_max_of_mem x h1
        · rcases foldl_max_choice rest x with h1 | h1
          · rw [h1]
            exact h x (List.mem_cons_self x rest)
          · exact h _ (List.mem_cons_of_mem x h1)
    have key_min : ((x :: rest).getD W 0 = rest.foldl min x) ↔
        ∀ y ∈ x :: rest, (x :: rest).getD W 0 ≤ y := by
      constructor
      · intro h y hy
        rw [h]
        rcases List.mem_cons.mp hy with h1 | h1
        · rw [h1]
          exact foldl_min_le_init rest x
        · exact foldl_min_le_of_mem x h1
      · intro h
        apply le_antisymm
        · rcases foldl_min_choice rest x with h1 | h1
          · rw [h1]
            exact h x (List.mem_cons_self x rest)
          · exact h _ (List.mem_cons_of_mem x h1)
        · rcases List.mem_cons.mp hcmem with h1 | h1
          · rw [h1]
            exact foldl_min_le_init rest x
          · exact foldl_min_le_of_mem x h1
    by_cases hM : (x :: rest).getD W 0 = rest.foldl max x
    · have hcl : classifyPivot (x :: rest) W = PivotKind.PH := by
        simp only [classifyPivot, if_pos hM]
      refine ⟨iff_of_true hcl (key_max.mp hM), ?_, ?_⟩
      · refine iff_of_false (fun h => ?_) (fun h => h.2 (key_max.mp hM))
        exact absurd (hcl.symm.trans h) (by simp)
      · refine iff_of_false (fun h => ?_) (fun h => h.1 (key_max.mp hM))
        exact absurd (hcl.symm.trans h) (by simp)
    · by_cases hm : (x :: rest).getD W 0 = rest.foldl min x
      · have hcl : classifyPivot (x :: rest) W = PivotKind.PL := by
          simp only [classifyPivot, if_neg hM, if_pos hm]
        refine ⟨?_, ?_, ?_⟩
        · refine iff_of_false (fun h => ?_) (fun hall => hM (key_max.mpr hall))
          exact absurd (hcl.symm.trans h) (by simp)
        · exact iff_of_true hcl ⟨key_min.mp hm, fun hall => hM (key_max.mpr hall)⟩
        · refine iff_of_false (fun h => ?_) (fun h => h.2 (key_min.mp hm))
          exact absurd (hcl.symm.trans h) (by simp)
      · have hcl : classifyPivot (x :: rest) W = PivotKind.NoPivot := by
          simp only [classifyPivot, if_neg hM, if_neg hm]
        refine ⟨?_, ?_, ?_⟩
        · refine iff_of_false (fun h => ?_) (fun hall => hM (key_max.mpr hall))
          exact absurd (hcl.symm.trans h) (by simp)
        · refine iff_of_false (fun h => ?_) (fun h => hm (key_min.mpr h.1))
          exact absurd (hcl.symm.trans h) (by simp)
        · exact iff_of_true hcl ⟨fun h => hM (key_max.mpr h), fun h => hm (key_min.mpr h)⟩

/-- C4 witness: the pivot classification theorem applied to the concrete
full buffer [1, 2, 1] with W = 1 (L = 3). -/
theorem classify_pivot_spec_witness :
    (classifyPivot [1, 2, 1] 1 = PivotKind.PH ↔
      ∀ y ∈ ([1, 2, 1] : List ℚ), y ≤ ([1, 2, 1] : List ℚ).getD 1 0) :=
  (classify_pivot_spec [1, 2, 1] 1 (by rfl)).1

/-- Mid sequence of the spec's pivot scenario for C5. -/
def c5Mids : List ℚ := [10, 11, 12, 11, 10, 9, 8, 9, 10, 11, 12]

/-- C5 counterexample.  For the spec's scenario sequence with W = 5 the
centre element (index 5) has mid 9, but the window minimum is 8 (at index
6), so the pivot step does NOT classify the centre as Low: it returns None,
refuting the claimed Low classification. -/
theorem c5_scenario_not_low : classifyPivot c5Mids 5 ≠ PivotKind.PL := by
  have h1 : c5Mids.getD 5 0 = 9 := by norm_num [c5Mids]
  have h2 : [(11:ℚ), 12, 11, 10, 9, 8, 9, 10, 11, 12].foldl max 10 = 12 := by
    simp only [List.foldl]
    norm_num [max_def]
  have h3 : [(11:ℚ), 12, 11, 10, 9, 8, 9, 10, 11, 12].foldl min 10 = 8 := by
    simp only [List.foldl]
    norm_num [min_def]
  simp only [c5Mids, classifyPivot] at *
  rw [h2, h3]
  norm_num [h1]
  decide

/-- C5 amended: on the scenario buffer [10,11,12,11,10,9,8,9,10,11,12] with
W = 5, the centre mid is 9 but the window minimum is 8 < 9, so the centre is
not the window minimum and the pivot step classifies it as None (not Low). -/
theorem c5_scenario_classified_none :
    c5Mids.getD 5 0 = 9 ∧ (8 : ℚ) ∈ c5Mids ∧ (8 : ℚ) < 9 ∧
    classifyPivot c5Mids 5 = PivotKind.NoPivot := by
  have h1 : c5Mids.getD 5 0 = 9 := by norm_num [c5Mids]
  have h2 : [(11:ℚ), 12, 11, 10, 9, 8, 9, 10, 11, 12].foldl max 10 = 12 := by
    simp only [List.foldl]
    norm_num [max_def]
  have h3 : [(11:ℚ), 12, 11, 10, 9, 8, 9, 10, 11, 12].foldl min 10 = 8 := by
    simp only [List.foldl]
    norm_num [min_def]
  refine ⟨h1, by norm_num [c5Mids], by norm_num, ?_⟩
  simp only [c5Mids, classifyPivot] at *
  rw [h2, h3]
  norm_num [h1]

/-- One raw quote row as consumed by `FeatureBuilder.transform`. -/
structure QuoteRow where
  priceBid : ℚ
  priceAsk : ℚ
  sizeBid : ℤ
  sizeAsk : ℤ
deriving DecidableEq

/-- Mutable state of a `FeatureBuilder` instance: previous mid-price,
EWMA of |dp|, and the smoothing factor alpha. -/
structure FBState where
  prev_mid : Option ℚ
  ewma_abs_dp : ℚ
  alpha : ℚ
deriving DecidableEq

/-- Feature dict produced by `FeatureBuilder.transform`. -/
structure Feat where
  dp : ℚ
  spread : ℚ
  size : ℤ
  is_momentum : Bool
  is_breakout : Bool
deriving DecidableEq

/-- `FeatureBuilder.transform` (simulate_quotes.py lines 89-124): computes
the mid and spread, the signed mid change `dp` (0 on the first call),
updates the EWMA of |dp| and flags momentum when it exceeds one cent, and
flags breakout via `abs((mid * 2) % 1) < 0.01` — Python's `%` with positive
divisor is the nonnegative fractional part, modelled by `Int.fract`. -/
def transform (st : FBState) (row : QuoteRow) : FBState × Feat :=
  let mid := (row.priceBid + row.priceAsk) / 2
  let spread := row.priceAsk - row.priceBid
  let dp : ℚ := match st.prev_mid with
    | Option.none => 0
    | some pm => mid - pm
  let ewma := st.alpha * st.ewma_abs_dp + (1 - st.alpha) * |dp|
  ({ prev_mid := some mid, ewma_abs_dp := ewma, alpha := st.alpha },
   { dp := dp, spread := spread, size := row.sizeBid + row.sizeAsk,
     is_momentum := decide (ewma > 1/100),
     is_breakout := decide (|Int.fract (mid * 2)| < 1/100) })

/-- C6: the code computes `is_breakout` as `frac(2 * mid) < 0.01`, which only
detects mids strictly within half a cent ABOVE an integer or half-integer
dollar level, not within one cent on either side.  Failing input: the quote
row (priceBid = 99.99, priceAsk = 100.00), whose mid 99.995 is within one
cent (distance 0.005) of the dollar level 100.00 = 200/2, yet the code
reports `is_breakout = false` — contradicting the claim and the code's own
docstring and inline comment ("close (< 1 c) to 0.00 or 0.50 level"). -/
theorem transform_breakout_misses_below :
    (transform ⟨Option.none, 0, 9/10⟩ ⟨9999/100, 100, 300, 200⟩).2.is_breakout = false ∧
    (∃ k : ℤ, |((9999:ℚ)/100 + 100)/2 - (k : ℚ)/2| < 1/100) := by
  constructor
  · norm_num [transform, Int.fract, Int.floor_eq_iff]
    rw [abs_of_nonneg (by norm_num : (0:ℚ) ≤ 99/100)]
    norm_num
  · refine ⟨200, ?_⟩
    norm_num
    rw [abs_of_nonneg (by norm_num : (0:ℚ) ≤ 1/200)]
    norm_num

/-- Momentum half of the regime label ("M" trending / "N" not). -/
inductive Mom
  | M
  | N
deriving DecidableEq

/-- Breakout half of the regime label ("B" near a level / "O" outside). -/
inductive Brk
  | B
  | O
deriving DecidableEq

/-- Sign of the last tick of a second ("U" up / "D" down / "F" flat). -/
inductive Sgn
  | U
  | D
  | F
deriving DecidableEq

/-- Market regime: the pair (momentum, breakout). -/
abbrev Regime := Mom × Brk

/-- Key of the transition table: (regime, sign). -/
abbrev RegimeSign := Regime × Sgn

/-- Discretised tick shape (dp_bin, spread_bin, size_bin). -/
abbrev BinKey := ℤ × ℤ × ℤ

/-- Association-list lookup with a default, modelling `Counter` /
`defaultdict` access (first matching key wins; Python dict keys are
unique). -/
def lookupD {K V : Type} [DecidableEq K] : List (K × V) → K → V → V
  | [], _, v0 => v0
  | (k0, v) :: rest, k, v0 => if k0 = k then v else lookupD rest k v0

/-- `counter[k] += v` on an association list: increment the first matching
entry, or append a fresh entry (Python dicts append new keys at the end). -/
def bumpCount {K : Type} [DecidableEq K] : List (K × ℕ) → K → ℕ → List (K × ℕ)
  | [], k, v => [(k, v)]
  | (k0, v0) :: rest, k, v =>
    if k0 = k then (k0, v0 + v) :: rest else (k0, v0) :: bumpCount rest k v

/-- In-memory state of a `QuoteModel` (simulate_quotes.py lines 152-160):
the (regime, sign)-keyed transition table of discretised-tick counters, and
the per-regime tick and second counters used for the lambda estimate. -/
structure QuoteModelState where
  transition : List (RegimeSign × List (BinKey × ℕ))
  ticks_per_regime : List (Regime × ℕ)
  seconds_per_regime : List (Regime × ℕ)
deriving DecidableEq

/-- `self.transition[key][val] += 1` on the nested association list. -/
def bumpTrans : List (RegimeSign × List (BinKey × ℕ)) → RegimeSign → BinKey →
    List (RegimeSign × List (BinKey × ℕ))
  | [], k, b => [(k, [(b, 1)])]
  | (k0, c0) :: rest, k, b =>
    if k0 = k then (k0, bumpCount c0 b 1) :: rest else (k0, c0) :: bumpTrans rest k b

/-- `QuoteModel._bin(x, quantum) = int(round(x / quantum))` with Python's
half-to-even rounding. -/
def binQ (x quantum : ℚ) : ℤ := pyRound (x / quantum)

/-- `QuoteModel.update_second` (simulate_quotes.py lines 165-200).  The
regime of the second is computed first; the sign then reads `feats[-1]`,
which on an empty list raises IndexError BEFORE any counter or table entry
is mutated — modelled by returning `Option.none` with the model state
untouched.  On a non-empty list: ticks_per_regime[regime] += len(feats),
seconds_per_regime[regime] += 1, and every feature's discretised
(dp, spread, size) triple is counted under (regime, sign). -/
def updateSecond (m : QuoteModelState) (feats : List Feat) : Option QuoteModelState :=
  match feats with
  | [] => Option.none
  | f0 :: rest =>
    let regime : Regime :=
      (if (f0 :: rest).any (fun f => f.is_momentum) then Mom.M else Mom.N,
       if (f0 :: rest).any (fun f => f.is_breakout) then Brk.B else Brk.O)
    let lastF := (f0 :: rest).getLast (List.cons_ne_nil f0 rest)
    let sign : Sgn := if lastF.dp > 0 then Sgn.U else if lastF.dp < 0 then Sgn.D else Sgn.F
    some { transition := (f0 :: rest).foldl (fun t f =>
             bumpTrans t (regime, sign)
               (binQ f.dp (5/1000), binQ f.spread (1/100), binQ (f.size : ℚ) 100)) m.transition,
           ticks_per_regime := bumpCount m.ticks_per_regime regime (f0 :: rest).length,
           seconds_per_regime := bumpCount m.seconds_per_regime regime 1 }

/-- C10: `QuoteModel.update_second` fails on an empty feature list — the
sign computation indexes `feats[-1]` before any mutation, so the model is
left unchanged (modelled by `Option.none`) — and succeeds on every
non-empty feature list. -/
theorem update_second_empty_vs_nonempty (m : QuoteModelState) (feats : List Feat) :
    (feats = [] → updateSecond m feats = Option.none) ∧
    (feats ≠ [] → ∃ m2, updateSecond m feats = some m2) := by
  cases feats with
  | nil => exact ⟨fun _ => rfl, fun h => absurd rfl h⟩
  | cons f fs => exact ⟨fun h => by simp at h, fun _ => ⟨_, rfl⟩⟩

/-- C10 witness: on the empty model, the empty feature list fails and a
one-element feature list succeeds. -/
theorem update_second_empty_vs_nonempty_witness :
    updateSecond ⟨[], [], []⟩ [] = Option.none ∧
    ∃ m2, updateSecond ⟨[], [], []⟩ [⟨0, 1/100, 100, false, false⟩] = some m2 :=
  ⟨(update_second_empty_vs_nonempty ⟨[], [], []⟩ []).1 rfl,
   (update_second_empty_vs_nonempty ⟨[], [], []⟩ [⟨0, 1/100, 100, false, false⟩]).2 (by simp)⟩

/-- Rendering of the momentum label used in the flattened JSON keys. -/
def momStr : Mom → String
  | Mom.M => "M"
  | Mom.N => "N"

/-- Rendering of the breakout label used in the flattened JSON keys. -/
def brkStr : Brk → String
  | Brk.B => "B"
  | Brk.O => "O"

/-- Rendering of the sign label used in the flattened JSON keys. -/
def sgnStr : Sgn → String
  | Sgn.U => "U"
  | Sgn.D => "D"
  | Sgn.F => "F"

/-- The flattened regime key of `convert_model.py`: the two regime
components joined by commas. -/
def encodeRegime (r : Regime) : String := momStr r.1 ++ "," ++ brkStr r.2

/-- The flattened transition key of `convert_model.py` line 115:
regime0, regime1 and sign joined by commas. -/
def encodeRegimeSign (k : RegimeSign) : String :=
  momStr k.1.1 ++ "," ++ brkStr k.1.2 ++ "," ++ sgnStr k.2

/-- The three-map JSON record written by `convert_model.py` (lines 135-139):
transition counts keyed by the flattened regime/sign string, plus the two
per-regime counters.  The inner bin keys of the Python JSON are the decimal
strings "dpBin,spreadBin,sizeBin"; that rendering of an integer triple is
bijective and is modelled here by the triple itself. -/
structure ModelJson where
  transition : List (String × List (BinKey × ℕ))
  ticks_per_regime : List (String × ℕ)
  seconds_per_regime : List (String × ℕ)
deriving DecidableEq

/-- `convert_model_to_json` (convert_model.py lines 111-139): flattens each
(regime, sign) key to its comma-joined string and copies the counters. -/
def convertModelToJson (m : QuoteModelState) : ModelJson :=
  { transition := m.transition.map (fun e => (encodeRegimeSign e.1, e.2)),
    ticks_per_regime := m.ticks_per_regime.map (fun e => (encodeRegime e.1, e.2)),
    seconds_per_regime := m.seconds_per_regime.map (fun e => (encodeRegime e.1, e.2)) }

/-- Modelled from the spec: parsing one flattened (regime, sign) key of the
export record back into its components (the importer lives in the React app,
which is not part of this repository; per spec section 6, import must invert
the flattened-key export).  Unparseable keys yield `Option.none`. -/
def decodeRegimeSign (s : String) : Option RegimeSign :=
  if s = "M,B,U" then some ((Mom.M, Brk.B), Sgn.U)
  else if s = "M,B,D" then some ((Mom.M, Brk.B), Sgn.D)
  else if s = "M,B,F" then some ((Mom.M, Brk.B), Sgn.F)
  else if s = "M,O,U" then some ((Mom.M, Brk.O), Sgn.U)
  else if s = "M,O,D" then some ((Mom.M, Brk.O), Sgn.D)
  else if s = "M,O,F" then some ((Mom.M, Brk.O), Sgn.F)
  else if s = "N,B,U" then some ((Mom.N, Brk.B), Sgn.U)
  else if s = "N,B,D" then some ((Mom.N, Brk.B), Sgn.D)
  else if s = "N,B,F" then some ((Mom.N, Brk.B), Sgn.F)
  else if s = "N,O,U" then some ((Mom.N, Brk.O), Sgn.U)
  else if s = "N,O,D" then some ((Mom.N, Brk.O), Sgn.D)
  else if s = "N,O,F" then some ((Mom.N, Brk.O), Sgn.F)
  else Option.none

/-- Modelled from the spec: parsing one flattened regime key. -/
def decodeRegime (s : String) : Option Regime :=
  if s = "M,B" then some (Mom.M, Brk.B)
  else if s = "M,O" then some (Mom.M, Brk.O)
  else if s = "N,B" then some (Mom.N, Brk.B)
  else if s = "N,O" then some (Mom.N, Brk.O)
  else Option.none

/-- Modelled from the spec: the importer rebuilds the three in-memory maps
from the JSON record by parsing every flattened key; entries with
unparseable keys are skipped. -/
def importModel (j : ModelJson) : QuoteModelState :=
  { transition := j.transition.filterMap
      (fun e => (decodeRegimeSign e.1).map (fun k => (k, e.2))),
    ticks_per_regime := j.ticks_per_regime.filterMap
      (fun e => (decodeRegime e.1).map (fun r => (r, e.2))),
    seconds_per_regime := j.seconds_per_regime.filterMap
      (fun e => (decodeRegime e.1).map (fun r => (r, e.2))) }

theorem decodeRegimeSign_encode (k : RegimeSign) :
    decodeRegimeSign (encodeRegimeSign k) = some k := by
  rcases k with ⟨⟨m, b⟩, s⟩
  cases m <;> cases b <;> cases s <;> rfl

theorem decodeRegime_encode (r : Regime) : decodeRegime (encodeRegime r) = some r := by
  rcases r with ⟨m, b⟩
  cases m <;> cases b <;> rfl

theorem filterMap_eq_self_of_some {α : Type} (f : α → Option α) (l : List α)
    (h : ∀ e ∈ l, f e = some e) : l.filterMap f = l := by
  induction l with
  | nil => rfl
  | cons a t ih =>
    rw [List.filterMap_cons, h a (List.mem_cons_self a t),
      ih (fun e he => h e (List.mem_cons_of_mem a he))]

theorem import_convert_id (m : QuoteModelState) :
    importModel (convertModelToJson m) = m := by
  cases m with
  | mk t tk sec =>
    unfold importModel convertModelToJson
    simp only [List.filterMap_map]
    congr 1
    · exact filterMap_eq_self_of_some _ t
        (fun e _ => by simp [Function.comp, decodeRegimeSign_encode])
    · exact filterMap_eq_self_of_some _ tk
        (fun e _ => by simp [Function.comp, decodeRegime_encode])
    · exact filterMap_eq_self_of_some _ sec
        (fun e _ => by simp [Function.comp, decodeRegime_encode])

/-- The empirical lambda estimate `QuoteModel._lambda`:
ticks_per_regime[regime] / max(1, seconds_per_regime[regime]). -/
def lambdaRegime (m : QuoteModelState) (r : Regime) : ℚ :=
  ((lookupD m.ticks_per_regime r 0 : ℕ) : ℚ) /
    ((max 1 (lookupD m.seconds_per_regime r 0 : ℕ) : ℕ) : ℚ)

/-- C9 (spec-modelled importer): exporting a trained `QuoteModel` to the
three-map record of `convert_model.py` and importing it back reconstructs an
equivalent model — `lambda(regime)` is identical for every regime, and the
transition-table counter behind `sample_tick`'s distribution is identical
for every (regime, sign) pair, hence the sampled-tick distribution is too. -/
theorem export_import_roundtrip (m : QuoteModelState) :
    (∀ r : Regime, lambdaRegime (importModel (convertModelToJson m)) r = lambdaRegime m r) ∧
    (∀ k : RegimeSign,
      lookupD (importModel (convertModelToJson m)).transition k [] =
        lookupD m.transition k []) := by
  rw [import_convert_id]
  exact ⟨fun r => rfl, fun k => rfl⟩

/-- Error message of `ExchangeBookGenerator.__init__`. -/
def sharesErrMsg : String := "Sum of market shares must be > 0"

/-- The venue-share validation and normalisation of
`ExchangeBookGenerator.__init__` (exchangebookgenerator.py lines 44-49):
`total_share = sum(shares.values())`, raise ValueError when it equals 0,
otherwise divide every share by the total.  The share values are passed as
the list of the table's values. -/
def initSharesP (shares : List ℚ) : Except String (List ℚ) :=
  let totalShare := shares.sum
  if totalShare = 0 then Except.error sharesErrMsg
  else Except.ok (shares.map (fun s => s / totalShare))

/-- C7 counterexample.  A venue-share table with the single value -1 sums to
-1 < 0, yet construction does NOT raise: the code only tests
`total_share == 0`, so the negative total is silently used to normalise the
shares (yielding the "distribution" [1]). -/
theorem init_shares_negative_total_accepted :
    initSharesP [-1] = Except.ok [1] ∧ ([-1] : List ℚ).sum < 0 := by
  constructor
  · norm_num [initSharesP]
  · norm_num

/-- C7 amended: construction raises exactly when the share values sum to
zero; any non-zero sum — including a negative one — is accepted and the
shares are normalised by it. -/
theorem init_shares_error_iff_zero (shares : List ℚ) :
    (shares.sum = 0 → initSharesP shares = Except.error sharesErrMsg) ∧
    (shares.sum ≠ 0 →
      initSharesP shares = Except.ok (shares.map (fun s => s / shares.sum))) := by
  constructor <;> intro h <;> simp [initSharesP, h]

/-- C7 witness: the share table with values [2, -2] sums to zero and is
rejected at construction. -/
theorem init_shares_error_iff_zero_witness :
    ([2, -2] : List ℚ).sum = 0 ∧
    initSharesP [2, -2] = Except.error sharesErrMsg :=
  ⟨by norm_num, (init_shares_error_iff_zero [2, -2]).1 (by norm_num)⟩

/-- Index of the first maximum of an integer list (`np.argmax`; 0 on the
empty array is never used by the code, which always passes non-empty
sizes). -/
def argmaxIdx : List ℤ → ℕ
  | [] => 0
  | x :: rest =>
    if rest = [] then 0
    else if rest.getD (argmaxIdx rest) 0 ≤ x then 0 else argmaxIdx rest + 1

theorem argmaxIdx_spec (l : List ℤ) (h : l ≠ []) :
    argmaxIdx l < l.length ∧ ∀ i, i < l.length → l.getD i 0 ≤ l.getD (argmaxIdx l) 0 := by
  induction l with
  | nil => exact absurd rfl h
  | cons x rest ih =>
    have hz : ∀ (a : ℤ) (t : List ℤ), (a :: t).getD 0 0 = a := fun a t => rfl
    have hs : ∀ (a : ℤ) (t : List ℤ) (j : ℕ), (a :: t).getD (j + 1) 0 = t.getD j 0 :=
      fun a t j => rfl
    by_cases hr : rest = []
    · subst hr
      refine ⟨by simp [argmaxIdx], ?_⟩
      intro i hi
      have hi0 : i = 0 := by simpa using hi
      subst hi0
      have ha : argmaxIdx [x] = 0 := rfl
      rw [ha]
    · obtain ⟨ih1, ih2⟩ := ih hr
      by_cases hle : rest.getD (argmaxIdx rest) 0 ≤ x
      · have ha : argmaxIdx (x :: rest) = 0 := by
          rw [argmaxIdx, if_neg hr, if_pos hle]
        refine ⟨by simp [ha], ?_⟩
        intro i hi
        rw [ha, hz]
        cases i with
        | zero => rw [hz]
        | succ j =>
          rw [hs]
          exact le_trans (ih2 j (by simpa using hi)) hle
      · have ha : argmaxIdx (x :: rest) = argmaxIdx rest + 1 := by
          rw [argmaxIdx, if_neg hr, if_neg hle]
        refine ⟨by simpa [ha] using ih1, ?_⟩
        intro i hi
        rw [ha, hs]
        cases i with
        | zero =>
          rw [hz]
          exact le_of_not_le hle
        | succ j =>
          rw [hs]
          exact ih2 j (by simpa using hi)

theorem sum_set_getD (l : List ℤ) (i : ℕ) (v : ℤ) (h : i < l.length) :
    (l.set i v).sum = l.sum - l.getD i 0 + v := by
  induction l generalizing i with
  | nil => simp at h
  | cons a t ih =>
    cases i with
    | zero => simp [List.set]; ring
    | succ j =>
      simp only [List.set, List.sum_cons, List.getD_cons_succ]
      rw [ih j (by simpa using h)]
      ring

theorem mem_exists_getD (l : List ℤ) (x : ℤ) (h : x ∈ l) :
    ∃ i, i < l.length ∧ l.getD i 0 = x := by
  induction l with
  | nil => simp at h
  | cons a t ih =>
    rcases List.mem_cons.mp h with h1 | h1
    · exact ⟨0, by simp, by simp [h1.symm]⟩
    · obtain ⟨i, hi, hg⟩ := ih h1
      exact ⟨i + 1, by simpa using hi, by simpa using hg⟩

/-- The surplus reconciliation loop of `ExchangeBookGenerator._dirichlet_sizes`
(exchangebookgenerator.py lines 95-101): while the drawn sizes overshoot the
requested total (`diff < 0`), remove one lot from the currently largest
allocation, but only while that allocation exceeds one lot — otherwise break.
The loop is a Python `while`; it is embedded with an explicit fuel counter,
and `surplusLoop_spec` proves that `diff.natAbs + 2` fuel always suffices
(the loop terminates). -/
def surplusLoop : ℕ → List ℤ → ℤ → Option (List ℤ × ℤ)
  | 0, _, _ => Option.none
  | fuel + 1, sizes, diff =>
    if diff < 0 then
      if 100 < sizes.getD (argmaxIdx sizes) 0 then
        surplusLoop fuel
          (sizes.set (argmaxIdx sizes) (sizes.getD (argmaxIdx sizes) 0 - 100))
          (diff + 100)
      else some (sizes, diff)
    else some (sizes, diff)

/-- The deficit reconciliation loop of
`ExchangeBookGenerator._dirichlet_sizes` (lines 104-107): while the drawn
sizes undershoot the requested total (`diff > 0`), add one lot to a randomly
chosen venue.  The random index draws `rng.integers(n)` are externalised as
the stream `stream`, read at successive positions and reduced mod the venue
count (`sizes.length`). -/
def deficitLoop : ℕ → (ℕ → ℕ) → ℕ → List ℤ → ℤ → Option (List ℤ × ℤ)
  | 0, _, _, _, _ => Option.none
  | fuel + 1, stream, pos, sizes, diff =>
    if 0 < diff then
      deficitLoop fuel stream (pos + 1)
        (sizes.set (stream pos % sizes.length)
          (sizes.getD (stream pos % sizes.length) 0 + 100))
        (diff - 100)
    else some (sizes, diff)

theorem surplusLoop_spec (P : ℤ → Prop) (hstep : ∀ x, P x → 100 < x → P (x - 100)) :
    ∀ fuel (sizes : List ℤ) (diff : ℤ), diff.natAbs + 2 ≤ fuel → (∀ x ∈ sizes, P x) →
      ∃ s2 d2, surplusLoop fuel sizes diff = some (s2, d2) ∧
        s2.length = sizes.length ∧ (∀ x ∈ s2, P x) ∧
        s2.sum + d2 = sizes.sum + diff ∧
        d2 % 100 = diff % 100 ∧
        (0 ≤ d2 ∨ (d2 < 0 ∧ ¬ 100 < s2.getD (argmaxIdx s2) 0)) := by
  intro fuel
  induction fuel with
  | zero => intro sizes diff hf hP; omega
  | succ f ih =>
    intro sizes diff hf hP
    by_cases hd : diff < 0
    · by_cases hbig : 100 < sizes.getD (argmaxIdx sizes) 0
      · have hne : sizes ≠ [] := by
          intro he
          subst he
          exact absurd hbig (by decide)
        obtain ⟨hidx, hmax⟩ := argmaxIdx_spec sizes hne
        have hvP : P (sizes.getD (argmaxIdx sizes) 0) :=
          hP _ (getD_mem_of_lt sizes (argmaxIdx sizes) 0 hidx)
        have hPnext : ∀ x ∈ sizes.set (argmaxIdx sizes)
            (sizes.getD (argmaxIdx sizes) 0 - 100), P x := by
          intro x hx
          rcases List.mem_or_eq_of_mem_set hx with h1 | h1
          · exact hP x h1
          · rw [h1]
            exact hstep _ hvP hbig
        have hsum : (sizes.set (argmaxIdx sizes)
            (sizes.getD (argmaxIdx sizes) 0 - 100)).sum = sizes.sum - 100 := by
          rw [sum_set_getD sizes (argmaxIdx sizes) _ hidx]
          omega
        rcases le_or_lt 0 (diff + 100) with hnn | hneg
        · obtain ⟨f2, rfl⟩ : ∃ f2, f = f2 + 1 := ⟨f - 1, by omega⟩
          refine ⟨_, diff + 100, ?_, ?_, hPnext, ?_, by omega, Or.inl hnn⟩
          · rw [surplusLoop, if_pos hd, if_pos hbig, surplusLoop,
              if_neg (by omega : ¬ diff + 100 < 0)]
          · simp
          · rw [hsum]
            omega
        · obtain ⟨s2, d2, heq, hlen, hP2, hsum2, hmod2, hexit⟩ :=
            ih _ (diff + 100) (by omega) hPnext
          refine ⟨s2, d2, ?_, ?_, hP2, ?_, by omega, hexit⟩
          · rw [surplusLoop, if_pos hd, if_pos hbig]
            exact heq
          · rw [hlen]
            simp
          · rw [hsum2, hsum]
            omega
      · refine ⟨sizes, diff, ?_, rfl, hP, rfl, rfl, Or.inr ⟨hd, hbig⟩⟩
        rw [surplusLoop, if_pos hd, if_neg hbig]
    · refine ⟨sizes, diff, ?_, rfl, hP, rfl, rfl, Or.inl (by omega)⟩
      rw [surplusLoop, if_neg hd]

theorem deficitLoop_spec (P : ℤ → Prop) (hstep : ∀ x, P x → P (x + 100)) :
    ∀ fuel (stream : ℕ → ℕ) (pos : ℕ) (sizes : List ℤ) (diff : ℤ),
      diff.natAbs + 2 ≤ fuel → (∀ x ∈ sizes, P x) → sizes ≠ [] →
      ∃ s2 d2, deficitLoop fuel stream pos sizes diff = some (s2, d2) ∧
        s2.length = sizes.length ∧ (∀ x ∈ s2, P x) ∧
        s2.sum + d2 = sizes.sum + diff ∧
        d2 % 100 = diff % 100 ∧ d2 ≤ 0 ∧ (-100 < d2 ∨ d2 = diff) := by
  intro fuel
  induction fuel with
  | zero => intro stream pos sizes diff hf hP hne; omega
  | succ f ih =>
    intro stream pos sizes diff hf hP hne
    by_cases hd : 0 < diff
    · have hlenpos : 0 < sizes.length := List.length_pos.mpr hne
      have hidx : stream pos % sizes.length < sizes.length := Nat.mod_lt _ hlenpos
      have hvP : P (sizes.getD (stream pos % sizes.length) 0) :=
        hP _ (getD_mem_of_lt sizes _ 0 hidx)
      have hPnext : ∀ x ∈ sizes.set (stream pos % sizes.length)
          (sizes.getD (stream pos % sizes.length) 0 + 100), P x := by
        intro x hx
        rcases List.mem_or_eq_of_mem_set hx with h1 | h1
        · exact hP x h1
        · rw [h1]
          exact hstep _ hvP
      have hsum : (sizes.set (stream pos % sizes.length)
          (sizes.getD (stream pos % sizes.length) 0 + 100)).sum = sizes.sum + 100 := by
        rw [sum_set_getD sizes _ _ hidx]
        omega
      have hnenext : sizes.set (stream pos % sizes.length)
          (sizes.getD (stream pos % sizes.length) 0 + 100) ≠ [] := by
        apply List.length_pos.mp
        rw [List.length_set]
        exact hlenpos
      rcases le_or_lt (diff - 100) 0 with hle | hgt
      · obtain ⟨f2, rfl⟩ : ∃ f2, f = f2 + 1 := ⟨f - 1, by omega⟩
        refine ⟨_, diff - 100, ?_, ?_, hPnext, ?_, by omega, hle, Or.inl (by omega)⟩
        · rw [deficitLoop, if_pos hd, deficitLoop,
            if_neg (by omega : ¬ (0:ℤ) < diff - 100)]
        · simp
        · rw [hsum]
          omega
      · obtain ⟨s2, d2, heq, hlen, hP2, hsum2, hmod2, hd2, hexit⟩ :=
          ih stream (pos + 1) _ (diff - 100) (by omega) hPnext hnenext
        refine ⟨s2, d2, ?_, ?_, hP2, ?_, by omega, hd2, ?_⟩
        · rw [deficitLoop, if_pos hd]
          exact heq
        · rw [hlen]
          simp
        · rw [hsum2, hsum]
          omega
        · rcases hexit with h1 | h1
          · exact Or.inl h1
          · omega
    · refine ⟨sizes, diff, ?_, rfl, hP, rfl, rfl, by omega, Or.inr rfl⟩
      rw [deficitLoop, if_neg hd]

/-- C8: both reconciliation loops of `_dirichlet_sizes` terminate — the
explicit fuel bound `|diff| + 2` is always sufficient, including when the
Dirichlet draw is already exact (diff = 0, zero iterations) — and starting
from strictly positive allocations every allocation stays strictly positive
throughout: the surplus loop only decrements an allocation that exceeds one
lot, and the deficit loop only adds. -/
theorem reconciliation_loops_terminate_positive (sizes : List ℤ) (diff : ℤ)
    (stream : ℕ → ℕ) (pos : ℕ) (hpos : ∀ x ∈ sizes, 0 < x) (hne : sizes ≠ []) :
    ∃ s2 d2 s3 d3,
      surplusLoop (diff.natAbs + 2) sizes diff = some (s2, d2) ∧
      (∀ x ∈ s2, 0 < x) ∧
      deficitLoop (d2.natAbs + 2) stream pos s2 d2 = some (s3, d3) ∧
      (∀ x ∈ s3, 0 < x) := by
  obtain ⟨s2, d2, heq2, hlen2, hP2, _, _, _⟩ :=
    surplusLoop_spec (fun x => 0 < x) (fun x hx hgt => by omega)
      (diff.natAbs + 2) sizes diff (by omega) hpos
  have hne2 : s2 ≠ [] := by
    apply List.length_pos.mp
    rw [hlen2]
    exact List.length_pos.mpr hne
  obtain ⟨s3, d3, heq3, _, hP3, _, _, _, _⟩ :=
    deficitLoop_spec (fun x => 0 < x) (fun x hx => by omega)
      (d2.natAbs + 2) stream pos s2 d2 (by omega) hP2 hne2
  exact ⟨s2, d2, s3, d3, heq2, hP2, heq3, hP3⟩

/-- C8 witness: the termination and positivity theorem applied to the
concrete entry state sizes = [300, 100], diff = -100 (one lot of surplus). -/
theorem reconciliation_loops_terminate_positive_witness :
    ∃ s2 d2 s3 d3,
      surplusLoop ((-100 : ℤ).natAbs + 2) [300, 100] (-100) = some (s2, d2) ∧
      (∀ x ∈ s2, 0 < x) ∧
      deficitLoop (d2.natAbs + 2) (fun _ => 0) 0 s2 d2 = some (s3, d3) ∧
      (∀ x ∈ s3, 0 < x) :=
  reconciliation_loops_terminate_positive [300, 100] (-100) (fun _ => 0) 0
    (by decide) (by simp)

/-- `ExchangeBookGenerator._pick_exchanges` (lines 62-70), venue count only
(the weighted choice of venue names does not affect sizes or offsets):
`max_n = min(7, max(1, total_size // 100))`; when `max_n >= 3` the count is
uniform on [3, max_n], modelled by `3 + r % (max_n - 2)` with the raw draw
`r` externalised; otherwise the degenerate single-venue count 1.  Python's
floor division is `Int.fdiv`. -/
def pickExchangesCount (totalSize : ℤ) (r : ℕ) : ℕ :=
  if 3 ≤ min 7 (max 1 (totalSize.fdiv 100)) then
    3 + r % ((min 7 (max 1 (totalSize.fdiv 100))).toNat - 2)
  else 1

theorem pickExchangesCount_spec (t : ℤ) (r : ℕ) :
    pickExchangesCount t r = 1 ∨
      (3 ≤ pickExchangesCount t r ∧ (pickExchangesCount t r : ℤ) * 100 ≤ t) := by
  unfold pickExchangesCount
  rw [Int.fdiv_eq_ediv t (by norm_num : (0:ℤ) ≤ 100)]
  by_cases h : (3:ℤ) ≤ min 7 (max 1 (t / 100))
  · rw [if_pos h]
    right
    have hm : r % ((min 7 (max 1 (t / 100))).toNat - 2) <
        (min 7 (max 1 (t / 100))).toNat - 2 := by
      apply Nat.mod_lt
      omega
    have hdiv : (t / 100) * 100 ≤ t := Int.ediv_mul_le t (by norm_num)
    constructor
    · omega
    · push_cast
      omega
  · rw [if_neg h]
    exact Or.inl rfl

/-- Step 1-2 of `_dirichlet_sizes` (line 85): lot counts
`floor(w_i * total / 100) * 100` from the Dirichlet weight vector `w`. -/
def lotFloor (total : ℤ) (w : List ℚ) : List ℤ :=
  w.map (fun wi => ⌊wi * (total : ℚ) / 100⌋ * 100)

/-- Lines 88-89 of `_dirichlet_sizes`: every zero allocation is raised to
one lot (the computed `shortfall` variable is dead code and omitted). -/
def raiseZeros (l : List ℤ) : List ℤ :=
  l.map (fun s => if s = 0 then 100 else s)

/-- `ExchangeBookGenerator._dirichlet_sizes` (lines 72-109): single venue
gets the whole total; otherwise floor the Dirichlet weights to lots, raise
zeros, then run the surplus and deficit reconciliation loops on
`diff = total - sizes.sum`.  The loops carry the fuel proven sufficient by
`surplusLoop_spec` / `deficitLoop_spec`; the `Option.none` fallbacks are
unreachable. -/
def dirichletSizes (total : ℤ) (n : ℕ) (w : List ℚ) (stream : ℕ → ℕ) : List ℤ :=
  if n = 1 then [total]
  else
    match surplusLoop ((total - (raiseZeros (lotFloor total w)).sum).natAbs + 2)
        (raiseZeros (lotFloor total w))
        (total - (raiseZeros (lotFloor total w)).sum) with
    | Option.none => raiseZeros (lotFloor total w)
    | some (s2, d2) =>
      match deficitLoop (d2.natAbs + 2) stream 0 s2 d2 with
      | Option.none => s2
      | some (s3, _) => s3

theorem raiseZeros_lotFloor_props (total : ℤ) (w : List ℚ)
    (hw0 : ∀ x ∈ w, 0 ≤ x) (ht0 : 0 ≤ total) :
    (raiseZeros (lotFloor total w)).length = w.length ∧
    ∀ x ∈ raiseZeros (lotFloor total w), 100 ≤ x ∧ x % 100 = 0 := by
  constructor
  · simp [raiseZeros, lotFloor]
  · intro x hx
    simp only [raiseZeros, lotFloor, List.map_map, List.mem_map, Function.comp] at hx
    obtain ⟨wi, hwi, hx⟩ := hx
    have hk0 : 0 ≤ ⌊wi * (total : ℚ) / 100⌋ := by
      apply Int.floor_nonneg.mpr
      apply div_nonneg
      · exact mul_nonneg (hw0 wi hwi) (by exact_mod_cast ht0)
      · norm_num
    by_cases hz : ⌊wi * (total : ℚ) / 100⌋ * 100 = 0
    · rw [if_pos hz] at hx
      omega
    · rw [if_neg hz] at hx
      omega

theorem sum_mod_100 (l : List ℤ) (h : ∀ x ∈ l, x % 100 = 0) : l.sum % 100 = 0 := by
  induction l with
  | nil => rfl
  | cons a t ih =>
    rw [List.sum_cons]
    have ha := h a (List.mem_cons_self a t)
    have ht := ih (fun x hx => h x (List.mem_cons_of_mem a hx))
    omega

theorem dirichletSizes_lot (total : ℤ) (n : ℕ) (w : List ℚ) (stream : ℕ → ℕ)
    (hn : 2 ≤ n) (hw : w.length = n) (hw0 : ∀ x ∈ w, 0 ≤ x) (ht0 : 0 ≤ total) :
    (dirichletSizes total n w stream).length = n ∧
    (∀ x ∈ dirichletSizes total n w stream, 100 ≤ x ∧ x % 100 = 0) ∧
    (total % 100 = 0 → 100 * (n : ℤ) ≤ total →
      (dirichletSizes total n w stream).sum = total) := by
  have hne1 : ¬ n = 1 := by omega
  obtain ⟨hlen1, hP1⟩ := raiseZeros_lotFloor_props total w hw0 ht0
  obtain ⟨s2, d2, heq2, hlen2, hP2, hsum2, hmod2, hexit2⟩ :=
    surplusLoop_spec (fun x => 100 ≤ x ∧ x % 100 = 0)
      (fun x hx hgt => by omega)
      ((total - (raiseZeros (lotFloor total w)).sum).natAbs + 2)
      (raiseZeros (lotFloor total w))
      (total - (raiseZeros (lotFloor total w)).sum)
      (by omega) hP1
  have hlen2n : s2.length = n := by rw [hlen2, hlen1, hw]
  have hne2 : s2 ≠ [] := by
    apply List.length_pos.mp
    omega
  obtain ⟨s3, d3, heq3, hlen3, hP3, hsum3, hmod3, hd3, hexit3⟩ :=
    deficitLoop_spec (fun x => 100 ≤ x ∧ x % 100 = 0)
      (fun x hx => by omega)
      (d2.natAbs + 2) stream 0 s2 d2 (by omega) hP2 hne2
  have hds : dirichletSizes total n w stream = s3 := by
    unfold dirichletSizes
    rw [if_neg hne1, heq2]
    dsimp only
    rw [heq3]
  rw [hds]
  refine ⟨by omega, hP3, ?_⟩
  intro hmodT hge
  have hs1mod : (raiseZeros (lotFloor total w)).sum % 100 = 0 :=
    sum_mod_100 _ (fun x hx => (hP1 x hx).2)
  have hd2nn : 0 ≤ d2 := by
    rcases hexit2 with h | ⟨hneg, hnotbig⟩
    · exact h
    · exfalso
      obtain ⟨hidx2, hmax2⟩ := argmaxIdx_spec s2 hne2
      have hall100 : ∀ x ∈ s2, x = 100 := by
        intro x hx
        obtain ⟨i, hi, hgi⟩ := mem_exists_getD s2 x hx
        have hle2 : x ≤ s2.getD (argmaxIdx s2) 0 := hgi ▸ hmax2 i hi
        have hge2 : 100 ≤ x := (hP2 x hx).1
        omega
      have hsum100 : s2.sum = (s2.length : ℤ) * 100 := by
        rw [List.sum_eq_card_nsmul s2 100 hall100]
        simp [nsmul_eq_mul]
      rw [hlen2n] at hsum100
      omega
  rcases hexit3 with h | h <;> omega

/-- `ExchangeBookGenerator._draw_offsets` with `ensure_best=True` (lines
111-115), in tick units: the drawn offsets `ks` (one per venue, each a tick
count `k`) are kept, except that when none of them is zero a randomly chosen
venue (raw draw `j`, reduced mod the venue count) is forced to the zero
offset.  The price offset itself is `k * TICK = k * 0.01`, applied at
emission time in `generate`. -/
def drawOffsets (ks : List ℤ) (j : ℕ) : List ℤ :=
  if ks.any (fun k => k == 0) then ks else ks.set (j % ks.length) 0

theorem drawOffsets_length (ks : List ℤ) (j : ℕ) :
    (drawOffsets ks j).length = ks.length := by
  unfold drawOffsets
  split_ifs <;> simp

/-- One NBBO tick as consumed by `ExchangeBookGenerator.generate`. -/
structure NBBOTick where
  time : ℕ
  priceBid : ℚ
  priceAsk : ℚ
  sizeBid : ℤ
  sizeAsk : ℤ
deriving DecidableEq

/-- One per-venue Level-1 quote emitted by `generate`; the venue name is
modelled by its index in the drawn venue list. -/
structure VenueQuote where
  time : ℕ
  exchange : ℕ
  priceBid : ℚ
  sizeBid : ℤ
  priceAsk : ℚ
  sizeAsk : ℤ
deriving DecidableEq

/-- `bid_sizes[nbbo_bid_idx].min()` of `generate`: the minimum allocation
over the zero-offset venues, whose indices are `i0 :: restIdx`. -/
def nbboMin (sizes : List ℤ) (i0 : ℕ) (restIdx : List ℕ) : ℤ :=
  (restIdx.map (fun i => sizes.getD i 0)).foldl min (sizes.getD i0 0)

/-- The NBBO-volume transfer of `generate` (lines 139-144 for the bid side,
147-152 for the ask side): when the smallest zero-offset allocation is below
one lot, move the shortfall from the largest allocation to the FIRST
zero-offset venue `i0`, but only when the donor keeps at least one lot. -/
def nbboTransfer (sizes : List ℤ) (i0 : ℕ) (restIdx : List ℕ) : List ℤ :=
  if nbboMin sizes i0 restIdx < 100 then
    if 100 ≤ sizes.getD (argmaxIdx sizes) 0 - (100 - nbboMin sizes i0 restIdx) then
      (sizes.set (argmaxIdx sizes)
          (sizes.getD (argmaxIdx sizes) 0 - (100 - nbboMin sizes i0 restIdx))).set i0
        ((sizes.set (argmaxIdx sizes)
            (sizes.getD (argmaxIdx sizes) 0 - (100 - nbboMin sizes i0 restIdx))).getD i0 0 +
          (100 - nbboMin sizes i0 restIdx))
    else sizes
  else sizes

/-- Lines 138-144 of `generate`: find the zero-offset venue indices
(`np.where(bid_off == 0)`) and apply the shortfall transfer.  An empty index
set is unreachable: `_draw_offsets(ensure_best=True)` always leaves a zero
offset. -/
def ensureNbboVolume (sizes ks : List ℤ) : List ℤ :=
  match (List.range ks.length).filter (fun i => ks.getD i 0 == 0) with
  | [] => sizes
  | i0 :: restIdx => nbboTransfer sizes i0 restIdx

theorem ensureNbboVolume_id (sizes ks : List ℤ) (hlen : ks.length = sizes.length)
    (h : ∀ x ∈ sizes, 100 ≤ x) : ensureNbboVolume sizes ks = sizes := by
  rcases hz : (List.range ks.length).filter (fun i => ks.getD i 0 == 0) with _ | ⟨i0, restIdx⟩
  · unfold ensureNbboVolume
    rw [hz]
  · unfold ensureNbboVolume
    rw [hz]
    dsimp only
    have hmem : ∀ i ∈ i0 :: restIdx, i < sizes.length := by
      intro i hi
      have h2 : i ∈ (List.range ks.length).filter (fun i => ks.getD i 0 == 0) := hz ▸ hi
      have h3 := List.mem_range.mp (List.mem_of_mem_filter h2)
      omega
    have hinit : 100 ≤ sizes.getD i0 0 :=
      h _ (getD_mem_of_lt sizes i0 0 (hmem i0 (List.mem_cons_self i0 restIdx)))
    have hm : 100 ≤ nbboMin sizes i0 restIdx := by
      unfold nbboMin
      rcases foldl_min_choice (restIdx.map (fun i => sizes.getD i 0)) (sizes.getD i0 0)
        with h1 | h1
      · rw [h1]
        exact hinit
      · obtain ⟨i, hi, hgi⟩ := List.mem_map.mp h1
        rw [← hgi]
        exact h _ (getD_mem_of_lt sizes i 0 (hmem i (List.mem_cons_of_mem i0 hi)))
    unfold nbboTransfer
    rw [if_neg (by omega)]

theorem map_getD_range (l : List ℤ) :
    (List.range l.length).map (fun i => l.getD i 0) = l := by
  induction l with
  | nil => rfl
  | cons a t ih =>
    show (List.range (t.length + 1)).map _ = _
    rw [List.range_succ_eq_map, List.map_cons, List.map_map]
    exact congrArg₂ List.cons rfl ih

theorem map_getD_range_of_length (l : List ℤ) (n : ℕ) (h : l.length = n) :
    (List.range n).map (fun i => l.getD i 0) = l := by
  subst h
  exact map_getD_range l

/-- The final per-side sizes of `generate`: the Dirichlet partition followed
by the zero-offset shortfall transfer (against the same drawn offsets used
for the emitted prices). -/
def genSizes (total : ℤ) (n : ℕ) (w : List ℚ) (st : ℕ → ℕ) (ks : List ℤ) (j : ℕ) :
    List ℤ :=
  ensureNbboVolume (dirichletSizes total n w st) (drawOffsets ks j)

/-- `ExchangeBookGenerator.generate` (lines 120-165).  Randomness is
externalised: `r` drives the venue-count draw, `wB`/`wA` are the two
Dirichlet weight vectors, `sB`/`sA` the deficit-loop index streams,
`ksB`/`ksA` the drawn per-venue tick offsets and `jB`/`jA` the forced-zero
index draws of `_draw_offsets`.  Venue count
`n = _pick_exchanges(min(sizeBid, sizeAsk))`; each emitted quote carries
`round(nbbo_price + k * 0.01, 2)` and the reconciled sizes. -/
def generate (tick : NBBOTick) (r : ℕ) (wB wA : List ℚ) (sB sA : ℕ → ℕ)
    (ksB ksA : List ℤ) (jB jA : ℕ) : List VenueQuote :=
  (List.range (pickExchangesCount (min tick.sizeBid tick.sizeAsk) r)).map (fun i =>
    { time := tick.time, exchange := i,
      priceBid := round2 (tick.priceBid + ((drawOffsets ksB jB).getD i 0 : ℚ) / 100),
      sizeBid := (genSizes tick.sizeBid
        (pickExchangesCount (min tick.sizeBid tick.sizeAsk) r) wB sB ksB jB).getD i 0,
      priceAsk := round2 (tick.priceAsk + ((drawOffsets ksA jA).getD i 0 : ℚ) / 100),
      sizeAsk := (genSizes tick.sizeAsk
        (pickExchangesCount (min tick.sizeBid tick.sizeAsk) r) wA sA ksA jA).getD i 0 })

theorem genSizes_spec (total : ℤ) (n : ℕ) (w : List ℚ) (st : ℕ → ℕ) (ks : List ℤ)
    (j : ℕ) (hn : n = 1 ∨ 2 ≤ n) (hk : ks.length = n) (hw : w.length = n)
    (hw0 : ∀ x ∈ w, 0 ≤ x) (ht : 100 ≤ total) :
    (genSizes total n w st ks j).length = n ∧
    (∀ x ∈ genSizes total n w st ks j, 100 ≤ x) ∧
    (total % 100 = 0 → 100 * (n : ℤ) ≤ total →
      (genSizes total n w st ks j).sum = total ∧
      ∀ x ∈ genSizes total n w st ks j, x % 100 = 0) := by
  rcases hn with h1 | h2
  · subst h1
    have hds : dirichletSizes total 1 w st = [total] := by
      unfold dirichletSizes
      rw [if_pos rfl]
    have hid : genSizes total 1 w st ks j = [total] := by
      unfold genSizes
      rw [hds]
      apply ensureNbboVolume_id
      · rw [drawOffsets_length, hk]
        rfl
      · intro x hx
        simp at hx
        omega
    rw [hid]
    refine ⟨rfl, ?_, ?_⟩
    · intro x hx
      simp at hx
      omega
    · intro hm hg
      refine ⟨by simp, ?_⟩
      intro x hx
      simp at hx
      omega
  · obtain ⟨hlen, hP, hsum⟩ := dirichletSizes_lot total n w st h2 hw hw0 (by omega)
    have hid : genSizes total n w st ks j = dirichletSizes total n w st := by
      unfold genSizes
      apply ensureNbboVolume_id
      · rw [drawOffsets_length, hk, hlen]
      · intro x hx
        exact (hP x hx).1
    rw [hid]
    exact ⟨hlen, fun x hx => (hP x hx).1,
      fun hm hg => ⟨hsum hm hg, fun x hx => (hP x hx).2⟩⟩

/-- C3 amended: whenever the input tick carries at least one lot on each
side (sizeBid, sizeAsk ≥ 100), every venue quote emitted by `generate`
carries at least one lot on BOTH sides — in particular every venue at the
zero offset holds ≥ 100 shares and no venue reports a zero size; this
includes the degenerate single-venue mode entered when
min(sizeBid, sizeAsk) < 300 (3 lots).  For inputs below one lot the claim
fails (see the counterexample): the sole venue then reports the undersized
total itself. -/
theorem generate_sizes_at_least_lot (tick : NBBOTick) (r : ℕ) (wB wA : List ℚ)
    (sB sA : ℕ → ℕ) (ksB ksA : List ℤ) (jB jA : ℕ)
    (hsb : 100 ≤ tick.sizeBid) (hsa : 100 ≤ tick.sizeAsk)
    (hwB0 : ∀ x ∈ wB, 0 ≤ x) (hwA0 : ∀ x ∈ wA, 0 ≤ x)
    (hlB : wB.length = pickExchangesCount (min tick.sizeBid tick.sizeAsk) r)
    (hlA : wA.length = pickExchangesCount (min tick.sizeBid tick.sizeAsk) r)
    (hkB : ksB.length = pickExchangesCount (min tick.sizeBid tick.sizeAsk) r)
    (hkA : ksA.length = pickExchangesCount (min tick.sizeBid tick.sizeAsk) r) :
    ∀ q ∈ generate tick r wB wA sB sA ksB ksA jB jA,
      100 ≤ q.sizeBid ∧ 100 ≤ q.sizeAsk := by
  intro q hq
  have hn : pickExchangesCount (min tick.sizeBid tick.sizeAsk) r = 1 ∨
      2 ≤ pickExchangesCount (min tick.sizeBid tick.sizeAsk) r := by
    rcases pickExchangesCount_spec (min tick.sizeBid tick.sizeAsk) r with h | ⟨h3, _⟩
    · exact Or.inl h
    · exact Or.inr (by omega)
  obtain ⟨hlenB, hgeB, _⟩ :=
    genSizes_spec tick.sizeBid _ wB sB ksB jB hn hkB hlB hwB0 hsb
  obtain ⟨hlenA, hgeA, _⟩ :=
    genSizes_spec tick.sizeAsk _ wA sA ksA jA hn hkA hlA hwA0 hsa
  unfold generate at hq
  obtain ⟨i, hir, hqe⟩ := List.mem_map.mp hq
  have hilt : i < pickExchangesCount (min tick.sizeBid tick.sizeAsk) r :=
    List.mem_range.mp hir
  rw [← hqe]
  constructor
  · exact hgeB _ (getD_mem_of_lt _ i 0 (by rw [hlenB]; exact hilt))
  · exact hgeA _ (getD_mem_of_lt _ i 0 (by rw [hlenA]; exact hilt))

/-- C1 amended: whenever the input tick's sizeBid and sizeAsk are strictly
positive multiples of the lot size 100, the venue quotes emitted by
`generate` have bid sizes summing exactly to sizeBid and ask sizes summing
exactly to sizeAsk, and every emitted size is a strictly positive multiple
of 100.  For inputs that are not lot multiples the claim fails (see the
counterexample): the deficit loop adds whole lots, so the partition sum is
rounded up to a lot multiple (and in single-venue mode the venue reports the
non-multiple total itself). -/
theorem generate_partition_exact (tick : NBBOTick) (r : ℕ) (wB wA : List ℚ)
    (sB sA : ℕ → ℕ) (ksB ksA : List ℤ) (jB jA : ℕ)
    (hsb0 : 0 < tick.sizeBid) (hsbm : tick.sizeBid % 100 = 0)
    (hsa0 : 0 < tick.sizeAsk) (hsam : tick.sizeAsk % 100 = 0)
    (hwB0 : ∀ x ∈ wB, 0 ≤ x) (hwA0 : ∀ x ∈ wA, 0 ≤ x)
    (hlB : wB.length = pickExchangesCount (min tick.sizeBid tick.sizeAsk) r)
    (hlA : wA.length = pickExchangesCount (min tick.sizeBid tick.sizeAsk) r)
    (hkB : ksB.length = pickExchangesCount (min tick.sizeBid tick.sizeAsk) r)
    (hkA : ksA.length = pickExchangesCount (min tick.sizeBid tick.sizeAsk) r) :
    ((generate tick r wB wA sB sA ksB ksA jB jA).map (fun q => q.sizeBid)).sum =
        tick.sizeBid ∧
    ((generate tick r wB wA sB sA ksB ksA jB jA).map (fun q => q.sizeAsk)).sum =
        tick.sizeAsk ∧
    ∀ q ∈ generate tick r wB wA sB sA ksB ksA jB jA,
      0 < q.sizeBid ∧ q.sizeBid % 100 = 0 ∧ 0 < q.sizeAsk ∧ q.sizeAsk % 100 = 0 := by
  have hsb : 100 ≤ tick.sizeBid := by omega
  have hsa : 100 ≤ tick.sizeAsk := by omega
  have hns := pickExchangesCount_spec (min tick.sizeBid tick.sizeAsk) r
  have hn : pickExchangesCount (min tick.sizeBid tick.sizeAsk) r = 1 ∨
      2 ≤ pickExchangesCount (min tick.sizeBid tick.sizeAsk) r := by
    rcases hns with h | ⟨h3, _⟩
    · exact Or.inl h
    · exact Or.inr (by omega)
  have hgeB : 100 * ((pickExchangesCount (min tick.sizeBid tick.sizeAsk) r : ℕ) : ℤ) ≤
      tick.sizeBid := by
    rcases hns with h | ⟨h3, hle⟩
    · rw [h]
      omega
    · omega
  have hgeA : 100 * ((pickExchangesCount (min tick.sizeBid tick.sizeAsk) r : ℕ) : ℤ) ≤
      tick.sizeAsk := by
    rcases hns with h | ⟨h3, hle⟩
    · rw [h]
      omega
    · omega
  obtain ⟨hlenB, hgeB', hfullB⟩ :=
    genSizes_spec tick.sizeBid _ wB sB ksB jB hn hkB hlB hwB0 hsb
  obtain ⟨hsumB, hmodB⟩ := hfullB hsbm hgeB
  obtain ⟨hlenA, hgeA', hfullA⟩ :=
    genSizes_spec tick.sizeAsk _ wA sA ksA jA hn hkA hlA hwA0 hsa
  obtain ⟨hsumA, hmodA⟩ := hfullA hsam hgeA
  refine ⟨?_, ?_, ?_⟩
  · unfold generate
    rw [List.map_map]
    have hcomp : ((fun q : VenueQuote => q.sizeBid) ∘ (fun i =>
        ({ time := tick.time, exchange := i,
           priceBid := round2 (tick.priceBid + ((drawOffsets ksB jB).getD i 0 : ℚ) / 100),
           sizeBid := (genSizes tick.sizeBid
             (pickExchangesCount (min tick.sizeBid tick.sizeAsk) r) wB sB ksB jB).getD i 0,
           priceAsk := round2 (tick.priceAsk + ((drawOffsets ksA jA).getD i 0 : ℚ) / 100),
           sizeAsk := (genSizes tick.sizeAsk
             (pickExchangesCount (min tick.sizeBid tick.sizeAsk) r) wA sA ksA jA).getD i 0 }
          : VenueQuote))) = (fun i => (genSizes tick.sizeBid
            (pickExchangesCount (min tick.sizeBid tick.sizeAsk) r) wB sB ksB jB).getD i 0) :=
      rfl
    rw [hcomp, map_getD_range_of_length _ _ hlenB]
    exact hsumB
  · unfold generate
    rw [List.map_map]
    have hcomp : ((fun q : VenueQuote => q.sizeAsk) ∘ (fun i =>
        ({ time := tick.time, exchange := i,
           priceBid := round2 (tick.priceBid + ((drawOffsets ksB jB).getD i 0 : ℚ) / 100),
           sizeBid := (genSizes tick.sizeBid
             (pickExchangesCount (min tick.sizeBid tick.sizeAsk) r) wB sB ksB jB).getD i 0,
           priceAsk := round2 (tick.priceAsk + ((drawOffsets ksA jA).getD i 0 : ℚ) / 100),
           sizeAsk := (genSizes tick.sizeAsk
             (pickExchangesCount (min tick.sizeBid tick.sizeAsk) r) wA sA ksA jA).getD i 0 }
          : VenueQuote))) = (fun i => (genSizes tick.sizeAsk
            (pickExchangesCount (min tick.sizeBid tick.sizeAsk) r) wA sA ksA jA).getD i 0) :=
      rfl
    rw [hcomp, map_getD_range_of_length _ _ hlenA]
    exact hsumA
  · intro q hq
    unfold generate at hq
    obtain ⟨i, hir, hqe⟩ := List.mem_map.mp hq
    have hilt : i < pickExchangesCount (min tick.sizeBid tick.sizeAsk) r :=
      List.mem_range.mp hir
    rw [← hqe]
    have hmemB : (genSizes tick.sizeBid
        (pickExchangesCount (min tick.sizeBid tick.sizeAsk) r) wB sB ksB jB).getD i 0 ∈
          genSizes tick.sizeBid
            (pickExchangesCount (min tick.sizeBid tick.sizeAsk) r) wB sB ksB jB :=
      getD_mem_of_lt _ i 0 (by rw [hlenB]; exact hilt)
    have hmemA : (genSizes tick.sizeAsk
        (pickExchangesCount (min tick.sizeBid tick.sizeAsk) r) wA sA ksA jA).getD i 0 ∈
          genSizes tick.sizeAsk
            (pickExchangesCount (min tick.sizeBid tick.sizeAsk) r) wA sA ksA jA :=
      getD_mem_of_lt _ i 0 (by rw [hlenA]; exact hilt)
    have h1 := hgeB' _ hmemB
    have h2 := hmodB _ hmemB
    have h3 := hgeA' _ hmemA
    have h4 := hmodA _ hmemA
    refine ⟨?_, ?_, ?_, ?_⟩ <;> dsimp only <;> omega

/-- C1 counterexample.  For the NBBO tick with sizeBid = sizeAsk = 250 — a
positive size that is not a lot multiple — `_pick_exchanges` degrades to a
single venue (max_n = 2 < 3) and `generate` emits one quote carrying the
whole 250 shares per side: 250 is not a multiple of the lot size 100, so the
claimed "every emitted size is a strictly positive multiple of 100" fails
(the sums are still 250 here; for multi-venue non-multiples even the sum
breaks, since the loops move whole lots only). -/
theorem generate_lot_multiple_fails :
    ¬ (∀ q ∈ generate ⟨0, 100, 5001/50, 250, 250⟩ 0 [1] [1] (fun _ => 0) (fun _ => 0)
          [1] [1] 0 0,
        0 < q.sizeBid ∧ q.sizeBid % 100 = 0 ∧ 0 < q.sizeAsk ∧ q.sizeAsk % 100 = 0) := by
  intro h
  have hn : pickExchangesCount (min (250:ℤ) 250) 0 = 1 := by decide
  have hgs : genSizes 250 1 [1] (fun _ => 0) [1] 0 = [250] := by
    unfold genSizes
    have hds : dirichletSizes 250 1 [1] (fun _ => 0) = [250] := by
      unfold dirichletSizes
      rw [if_pos rfl]
    rw [hds]
    decide
  have hmap : (generate ⟨0, 100, 5001/50, 250, 250⟩ 0 [1] [1] (fun _ => 0) (fun _ => 0)
      [1] [1] 0 0).map (fun q => q.sizeBid) = [250] := by
    unfold generate
    dsimp only
    rw [hn, hgs]
    rfl
  have h250 : (250 : ℤ) ∈ (generate ⟨0, 100, 5001/50, 250, 250⟩ 0 [1] [1] (fun _ => 0)
      (fun _ => 0) [1] [1] 0 0).map (fun q => q.sizeBid) := by
    rw [hmap]
    exact List.mem_singleton.mpr rfl
  obtain ⟨q, hq, hqe⟩ := List.mem_map.mp h250
  have hbad := (h q hq).2.1
  rw [hqe] at hbad
  exact absurd hbad (by decide)

/-- C1 witness: the amended partition theorem applied to the tick
(sizeBid = sizeAsk = 400, lot multiples), r = 0 (three venues), Dirichlet
weights [1/2, 1/3, 1/6] and offsets [0, 1, -1] on both sides: the emitted
bid sizes sum to 400 and the ask sizes sum to 400. -/
theorem generate_partition_exact_witness :
    ((generate ⟨0, 100, 5001/50, 400, 400⟩ 0 [1/2, 1/3, 1/6] [1/2, 1/3, 1/6]
        (fun _ => 0) (fun _ => 0) [0, 1, -1] [0, 1, -1] 0 0).map
      (fun q => q.sizeBid)).sum = 400 ∧
    ((generate ⟨0, 100, 5001/50, 400, 400⟩ 0 [1/2, 1/3, 1/6] [1/2, 1/3, 1/6]
        (fun _ => 0) (fun _ => 0) [0, 1, -1] [0, 1, -1] 0 0).map
      (fun q => q.sizeAsk)).sum = 400 := by
  have h := generate_partition_exact ⟨0, 100, 5001/50, 400, 400⟩ 0
    [1/2, 1/3, 1/6] [1/2, 1/3, 1/6] (fun _ => 0) (fun _ => 0)
    [0, 1, -1] [0, 1, -1] 0 0
    (by decide) (by decide) (by decide) (by decide)
    (by norm_num [List.forall_mem_cons]) (by norm_num [List.forall_mem_cons])
    (by decide) (by decide) (by decide) (by decide)
  exact ⟨h.1, h.2.1⟩

/-- C3 counterexample.  For the NBBO tick with sizeBid = sizeAsk = 50 — a
positive size below one lot — `generate` runs in degenerate single-venue
mode; the sole venue is forced to the zero offset (its emitted priceBid
equals the NBBO bid 100.00), the shortfall transfer finds no donor
(50 - 50 < 100) and the venue reports sizeBid = 50 < 100: a zero-offset
venue carrying less than one lot, refuting the claim. -/
theorem generate_zero_offset_lot_fails :
    ¬ (∀ q ∈ generate ⟨0, 100, 5001/50, 50, 50⟩ 0 [1] [1] (fun _ => 0) (fun _ => 0)
          [1] [1] 0 0,
        q.priceBid = 100 → 100 ≤ q.sizeBid) := by
  intro h
  have hn : pickExchangesCount (min (50:ℤ) 50) 0 = 1 := by decide
  have hgs : genSizes 50 1 [1] (fun _ => 0) [1] 0 = [50] := by
    unfold genSizes
    have hds : dirichletSizes 50 1 [1] (fun _ => 0) = [50] := by
      unfold dirichletSizes
      rw [if_pos rfl]
    rw [hds]
    decide
  have hoff : drawOffsets [1] 0 = [0] := by decide
  have hG : generate ⟨0, 100, 5001/50, 50, 50⟩ 0 [1] [1] (fun _ => 0) (fun _ => 0)
      [1] [1] 0 0 = [⟨0, 0, 100, 50, 5001/50, 50⟩] := by
    unfold generate
    dsimp only
    rw [hn, hgs, hoff]
    norm_num [round2, pyRound, Int.fract, Int.floor_eq_iff, Int.even_iff]
    rfl
  have hbad := h ⟨0, 0, 100, 50, 5001/50, 50⟩
    (by rw [hG]; exact List.mem_singleton.mpr rfl) rfl
  exact absurd hbad (by decide)

/-- C3 witness: the amended theorem applied to the tick
(sizeBid = 150, sizeAsk = 370, both at least one lot): the single emitted
venue quote — which sits at the zero offset on both sides — carries
sizeBid = 150 ≥ 100 and sizeAsk = 370 ≥ 100. -/
theorem generate_sizes_at_least_lot_witness :
    100 ≤ ((⟨0, 0, 100, 150, 5001/50, 370⟩ : VenueQuote)).sizeBid ∧
    100 ≤ ((⟨0, 0, 100, 150, 5001/50, 370⟩ : VenueQuote)).sizeAsk := by
  have hn : pickExchangesCount (min (150:ℤ) 370) 0 = 1 := by decide
  have hgsB : genSizes 150 1 [1] (fun _ => 0) [5] 0 = [150] := by
    unfold genSizes
    have hds : dirichletSizes 150 1 [1] (fun _ => 0) = [150] := by
      unfold dirichletSizes
      rw [if_pos rfl]
    rw [hds]
    decide
  have hgsA : genSizes 370 1 [1] (fun _ => 0) [5] 0 = [370] := by
    unfold genSizes
    have hds : dirichletSizes 370 1 [1] (fun _ => 0) = [370] := by
      unfold dirichletSizes
      rw [if_pos rfl]
    rw [hds]
    decide
  have hoff : drawOffsets [5] 0 = [0] := by decide
  have hG : generate ⟨0, 100, 5001/50, 150, 370⟩ 0 [1] [1] (fun _ => 0) (fun _ => 0)
      [5] [5] 0 0 = [⟨0, 0, 100, 150, 5001/50, 370⟩] := by
    unfold generate
    dsimp only
    rw [hn, hgsB, hgsA, hoff]
    norm_num [round2, pyRound, Int.fract, Int.floor_eq_iff, Int.even_iff]
    rfl
  exact generate_sizes_at_least_lot ⟨0, 100, 5001/50, 150, 370⟩ 0 [1] [1]
    (fun _ => 0) (fun _ => 0) [5] [5] 0 0
    (by decide) (by decide)
    (by norm_num [List.forall_mem_cons]) (by norm_num [List.forall_mem_cons])
    (by decide) (by decide) (by decide) (by decide)
    ⟨0, 0, 100, 150, 5001/50, 370⟩
    (by rw [hG]; exact List.mem_singleton.mpr rfl)
